import Mathlib

/-!
Verification development for the `rynx-browser` layout and addressing core
(`src/renderer.rs`, `src/models.rs`, `src/app.rs`, `src/event_handler.rs`).

The Rust code is shallowly embedded: strings are `List Char`, the mutable
`DomRenderer` struct is threaded explicitly, and the one genuinely
unbounded loop in the code (the hard-split loop of `push_word`) is given
explicit fuel.  Everywhere else the embedding is structurally recursive.
Machine integers are `Nat`; Rust's `saturating_sub` is `Nat` subtraction.
-/

set_option maxRecDepth 4000

namespace Rynx

/-- Display width of one character.  This models the `unicode_width` crate
as the renderer uses it: every call site is either
`UnicodeWidthChar::width(ch).unwrap_or(0)` or `UnicodeWidthStr::width`
(the sum of the character widths).  Control characters map to 0 (the crate
returns `None` there and the code defaults to 0), zero-width format
characters and combining marks map to 0, East-Asian wide and emoji ranges
map to 2, everything else to 1. -/
def charWidth (c : Char) : Nat :=
  if c.val < 0x20 then 0
  else if c.val = 0x7F then 0
  else if 0x300 ≤ c.val ∧ c.val ≤ 0x36F then 0
  else if c.val = 0x200B then 0
  else if 0x1100 ≤ c.val ∧ c.val ≤ 0x115F then 2
  else if 0x2E80 ≤ c.val ∧ c.val ≤ 0xA4CF then 2
  else if 0xAC00 ≤ c.val ∧ c.val ≤ 0xD7A3 then 2
  else if 0xF900 ≤ c.val ∧ c.val ≤ 0xFAFF then 2
  else if 0xFF00 ≤ c.val ∧ c.val ≤ 0xFF60 then 2
  else if 0x1F300 ≤ c.val ∧ c.val ≤ 0x1FAFF then 2
  else if 0x20000 ≤ c.val ∧ c.val ≤ 0x2FFFD then 2
  else 1

/-- `UnicodeWidthStr::width`: display width of a string. -/
def strWidth (s : List Char) : Nat := (s.map charWidth).sum

/-- Convenience: the character list of a Lean string literal. -/
def str (s : String) : List Char := s.data

/-- The foreground colors the renderer uses (`ratatui::style::Color`). -/
inductive Col where
  | cyan
  | white
  | magenta
  | darkGray
deriving DecidableEq, Repr

/-- The fragment of `ratatui::style::Style` the renderer manipulates:
`add_modifier(BOLD | ITALIC | UNDERLINED)` and `fg(color)`. -/
structure Style where
  bold : Bool := false
  italic : Bool := false
  underlined : Bool := false
  fg : Option Col := none
deriving DecidableEq, Repr

/-- `ratatui::text::Span`: a text run with one style. -/
structure Span where
  content : List Char
  style : Style
deriving DecidableEq, Repr

/-- `ratatui::text::Line`: an ordered sequence of spans. -/
abbrev Line := List Span

/-- `Line::width()`: the sum of the display widths of the spans. -/
def line_width (l : Line) : Nat := (l.map (fun sp => strWidth sp.content)).sum

/-- `Line::to_string()` (the `Display` impl): the concatenated span
contents. -/
def lineToString (l : Line) : List Char := (l.map Span.content).flatten

/-- `models::LinkRegion`. -/
structure LinkRegion where
  url : List Char
  line_index : Nat
  x_start : Nat
  x_end : Nat
deriving DecidableEq, Repr

/-- The state of `renderer::DomRenderer`, field for field. -/
structure DomRenderer where
  lines : List Line
  current_line : List Span
  current_style : Style
  links : List LinkRegion
  max_width : Nat
  current_line_width : Nat
  active_link_url : Option (List Char)
  preserve_whitespace : Bool
  list_depth : Nat
deriving DecidableEq, Repr

/-- `DomRenderer::new(width)`: note `max_width = width.saturating_sub(2)`
(`Nat` subtraction is saturating). -/
def DomRenderer.new (width : Nat) : DomRenderer :=
  { lines := []
    current_line := []
    current_style := {}
    links := []
    max_width := width - 2
    current_line_width := 0
    active_link_url := none
    preserve_whitespace := false
    list_depth := 0 }

/-- `DomRenderer::flush_line`. -/
def flush_line (r : DomRenderer) : DomRenderer :=
  if r.current_line = [] then r
  else { r with lines := r.lines ++ [r.current_line]
                current_line := []
                current_line_width := 0 }

/-- The line pushed by `self.lines.push(Line::from(""))`.
`ratatui`'s `Line::from("")` takes the no-newline path of `Line::raw` and
wraps the content in a single raw `Span`, so the separator line holds one
empty span and its `spans.is_empty()` is `false`. -/
def blankLine : Line := [⟨[], {}⟩]

/-- `DomRenderer::add_vertical_space`. -/
def add_vertical_space (r : DomRenderer) : DomRenderer :=
  let r := flush_line r
  match r.lines.getLast? with
  | some l => if l = [] then r else { r with lines := r.lines ++ [blankLine] }
  | none => r

/-- `DomRenderer::push_span_to_line`: push a styled span and record or
extend a `LinkRegion` when a link is active. -/
def push_span_to_line (r : DomRenderer) (content : List Char) : DomRenderer :=
  let width := strWidth content
  let start_x := r.current_line_width
  let end_x := start_x + width
  let r := { r with current_line := r.current_line ++ [(⟨content, r.current_style⟩ : Span)]
                    current_line_width := r.current_line_width + width }
  match r.active_link_url with
  | none => r
  | some url =>
    let line_idx := r.lines.length
    match r.links.getLast? with
    | some last =>
      if last.line_index = line_idx ∧ last.url = url ∧ last.x_end = start_x then
        { r with links := r.links.dropLast ++ [{ last with x_end := end_x }] }
      else
        { r with links := r.links ++ [(⟨url, line_idx, start_x, end_x⟩ : LinkRegion)] }
    | none => { r with links := r.links ++ [(⟨url, line_idx, start_x, end_x⟩ : LinkRegion)] }

/-- `DomRenderer::apply_indentation`: `"  ".repeat(list_depth)` is
`2 * list_depth` spaces. -/
def apply_indentation (r : DomRenderer) : DomRenderer :=
  if r.current_line_width = 0 ∧ 0 < r.list_depth then
    push_span_to_line r (List.replicate (2 * r.list_depth) ' ')
  else r

/-- The greedy character count of the hard-split scan: how many leading
characters of `rem` fit within `avail` columns (the loop accumulating
`current_width` and `split_idx`; the byte index `split_idx` always falls on
a character boundary, so counting characters is equivalent). -/
def takeCount : List Char → Nat → Nat
  | [], _ => 0
  | c :: cs, avail =>
    if charWidth c ≤ avail then takeCount cs (avail - charWidth c) + 1 else 0

/-- The `while !remaining.is_empty()` hard-split loop of
`DomRenderer::push_word` (case 3), with explicit fuel bounding the number
of iterations.  `none` models non-termination of the Rust loop: an
iteration that consumes no characters (the `available_space == 0` branch)
leaves the loop state unchanged forever, and every terminating run
consumes at least one character per iteration, so `remaining.len() + 1`
fuel is enough for every terminating run. -/
def hardSplitFuel : Nat → DomRenderer → List Char → Option DomRenderer
  | 0, _, _ => none
  | fuel + 1, r, remaining =>
    if remaining = [] then some r
    else
      let r := apply_indentation r
      let avail := r.max_width - r.current_line_width
      if avail = 0 then hardSplitFuel fuel (flush_line r) remaining
      else
        let k0 := takeCount remaining avail
        let k := if k0 = 0 then 1 else k0
        let r := push_span_to_line r (remaining.take k)
        let rest := remaining.drop k
        if rest = [] then some r else hardSplitFuel fuel (flush_line r) rest

/-- `DomRenderer::push_word` (the live version at renderer.rs:160): skip a
lone leading space on a fresh line outside preformatted text, apply list
indentation, then the three wrap cases.  The hard-split case receives
`word.length + 1` fuel, which covers every terminating execution of the
Rust loop. -/
def push_word (r : DomRenderer) (word : List Char) : Option DomRenderer :=
  if word = [' '] ∧ r.current_line_width = 0 ∧ r.preserve_whitespace = false then
    some r
  else
    let r := apply_indentation r
    let word_width := strWidth word
    if r.current_line_width + word_width ≤ r.max_width then
      some (push_span_to_line r word)
    else if word_width ≤ r.max_width then
      some (push_span_to_line (apply_indentation (flush_line r)) word)
    else
      let r := if 0 < r.current_line_width then flush_line r else r
      hardSplitFuel (word.length + 1) r word

/-- Model of Rust `char::is_whitespace` on the whitespace characters HTML
text can reasonably contain (ASCII whitespace). -/
def isWs (c : Char) : Bool :=
  c == ' ' || c == '\t' || c == '\n' || c == '\r' || c == '\x0b' || c == '\x0c'

/-- Accumulator loop for `str::split_whitespace`. -/
def splitWsGo : List Char → List Char → List (List Char)
  | [], acc => if acc = [] then [] else [acc.reverse]
  | c :: cs, acc =>
    if isWs c then
      if acc = [] then splitWsGo cs [] else acc.reverse :: splitWsGo cs []
    else splitWsGo cs (c :: acc)

/-- `str::split_whitespace`: maximal runs of non-whitespace characters. -/
def split_whitespace (s : List Char) : List (List Char) := splitWsGo s []

/-- Split a character list at every newline, keeping all pieces. -/
def splitOnNL : List Char → List (List Char)
  | [] => [[]]
  | c :: cs =>
    if c = '\n' then [] :: splitOnNL cs
    else
      match splitOnNL cs with
      | p :: ps => (c :: p) :: ps
      | [] => [[c]]

/-- Strip one trailing carriage return, as `str::lines` does per line. -/
def stripCR (l : List Char) : List Char :=
  if l.getLast? = some '\r' then l.dropLast else l

/-- `str::lines`: split on newline, drop a final empty piece, strip a
trailing carriage return from each line. -/
def rustLines (s : List Char) : List (List Char) :=
  let ps := splitOnNL s
  let ps := if ps.getLast? = some [] then ps.dropLast else ps
  ps.map stripCR

/-- The parsed markup tree the external parser supplies: text nodes and
element nodes with a tag name, attributes and children (`scraper::Node`;
other node kinds such as comments and doctypes fall through the walker's
catch-all arm). -/
inductive Node where
  | text (s : List Char)
  | element (tag : List Char) (attrs : List (List Char × List Char)) (children : List Node)
  | comment

/-- `ElementRef::attr(name)`. -/
def getAttr (attrs : List (List Char × List Char)) (name : List Char) : Option (List Char) :=
  (attrs.find? (fun p => decide (p.1 = name))).map Prod.snd

/-- The preserve-whitespace text arm of `DomRenderer::walk`:
`for line in text.lines() { push_word(line); flush_line(); }`. -/
def walkTextPre (r : DomRenderer) : List (List Char) → Option DomRenderer
  | [] => some r
  | line :: rest =>
    match push_word r line with
    | none => none
    | some r' => walkTextPre (flush_line r') rest

/-- The normal text arm of `DomRenderer::walk`: for each word, first push a
single space when the current line is non-empty, then push the word. -/
def walkWords (r : DomRenderer) : List (List Char) → Option DomRenderer
  | [] => some r
  | w :: ws =>
    match (if 0 < r.current_line_width ∧ r.current_line ≠ [] then push_word r [' ']
           else some r) with
    | none => none
    | some r' =>
      match push_word r' w with
      | none => none
      | some r'' => walkWords r'' ws

/-- The entry `match tag` of `DomRenderer::walk` (run before the children
are visited).  The bullet string literal in the source file is the byte
sequence `c3 a2 e2 82 ac c2 a2 20`, i.e. the four characters `"â€¢ "`.
The `img` arm restores `old_style`, which at this point is still
`r.current_style`. -/
def walkEntry (r : DomRenderer) (tag : List Char)
    (attrs : List (List Char × List Char)) : Option DomRenderer :=
  if tag = str "b" ∨ tag = str "strong" then
    some { r with current_style := { r.current_style with bold := true } }
  else if tag = str "i" ∨ tag = str "em" then
    some { r with current_style := { r.current_style with italic := true } }
  else if tag = str "a" then
    let r' := { r with current_style :=
      { r.current_style with fg := some Col.cyan, underlined := true } }
    some (match getAttr attrs (str "href") with
          | some href => { r' with active_link_url := some href }
          | none => r')
  else if tag = str "h1" ∨ tag = str "h2" ∨ tag = str "h3" then
    let r' := add_vertical_space r
    some { r' with current_style :=
      { r'.current_style with fg := some Col.white, bold := true } }
  else if tag = str "pre" ∨ tag = str "code" then
    let r' := flush_line r
    some { r' with preserve_whitespace := true
                   current_style := { r'.current_style with fg := some Col.magenta } }
  else if tag = str "ul" ∨ tag = str "ol" then
    let r' := flush_line r
    some { r' with list_depth := r'.list_depth + 1 }
  else if tag = str "li" then
    let r' := flush_line r
    push_word r' (List.replicate (2 * (r'.list_depth - 1)) ' ' ++ str "â€¢ ")
  else if tag = str "img" then
    let alt := (getAttr attrs (str "alt")).getD (str "IMAGE")
    let r' := { r with current_style :=
      { r.current_style with fg := some Col.darkGray } }
    match push_word r' (str "[" ++ alt ++ str "] ") with
    | none => none
    | some r'' => some { r'' with current_style := r.current_style }
  else if tag = str "br" then
    some (flush_line r)
  else if tag = str "p" ∨ tag = str "main" ∨ tag = str "article" ∨
      tag = str "section" ∨ tag = str "table" ∨ tag = str "aside" then
    some (add_vertical_space r)
  else if tag = str "div" ∨ tag = str "header" ∨ tag = str "footer" ∨
      tag = str "nav" ∨ tag = str "tr" then
    some (flush_line r)
  else if tag = str "td" ∨ tag = str "th" then
    push_word r (str "  ")
  else if tag = str "hr" then
    let r' := add_vertical_space r
    match push_word r' (List.replicate r'.max_width '-') with
    | none => none
    | some r'' => some (add_vertical_space r'')
  else
    some r

/-- The exit `match tag` of `DomRenderer::walk` (run after the ancestor
state has been restored). -/
def walkExit (tag : List Char) (r3 : DomRenderer) : DomRenderer :=
  if tag = str "ul" ∨ tag = str "ol" then
    flush_line { r3 with list_depth := r3.list_depth - 1 }
  else if tag = str "h1" ∨ tag = str "h2" ∨ tag = str "h3" ∨ tag = str "p" ∨
      tag = str "main" ∨ tag = str "article" ∨ tag = str "section" ∨
      tag = str "table" ∨ tag = str "aside" ∨ tag = str "pre" then
    add_vertical_space r3
  else if tag = str "div" ∨ tag = str "li" ∨ tag = str "header" ∨
      tag = str "footer" ∨ tag = str "nav" ∨ tag = str "tr" then
    flush_line r3
  else r3

mutual

/-- `DomRenderer::walk`, one node: skip script/style/head/meta/link and
hidden elements, save the walker state, apply the entry effects, visit the
children, restore the saved state, apply the exit effects. -/
def walkNode (r : DomRenderer) : Node → Option DomRenderer
  | .text s =>
    if r.preserve_whitespace then walkTextPre r (rustLines s)
    else walkWords r (split_whitespace s)
  | .comment => some r
  | .element tag attrs children =>
    if tag = str "script" ∨ tag = str "style" ∨ tag = str "head" ∨
        tag = str "meta" ∨ tag = str "link" then
      some r
    else if (getAttr attrs (str "hidden")).isSome ∨
        getAttr attrs (str "aria-hidden") = some (str "true") then
      some r
    else
      match walkEntry r tag attrs with
      | none => none
      | some r1 =>
        match walkNodes r1 children with
        | none => none
        | some r2 =>
          some (walkExit tag
            { r2 with current_style := r.current_style
                      active_link_url := r.active_link_url
                      preserve_whitespace := r.preserve_whitespace })

/-- `DomRenderer::walk` over a child list. -/
def walkNodes (r : DomRenderer) : List Node → Option DomRenderer
  | [] => some r
  | n :: ns =>
    match walkNode r n with
    | none => none
    | some r' => walkNodes r' ns

end

/-- `DomRenderer::new(width)` followed by `render(document)`: walk the
root's children, then flush the last line.  `doc` is the root's child
list as the parser provides it. -/
def render (width : Nat) (doc : List Node) : Option DomRenderer :=
  (walkNodes (DomRenderer.new width) doc).map flush_line

/-- `App::render_tab`: the renderer for a tab is constructed with
`content_width = terminal_width.saturating_sub(2)`. -/
def render_tab_renderer (terminal_width : Nat) : DomRenderer :=
  DomRenderer.new (terminal_width - 2)

/-- `models::Selection`. -/
structure Selection where
  start_line : Nat
  start_char : Nat
  end_line : Nat
  end_char : Nat
deriving DecidableEq, Repr

/-- The normalization at the top of `Selection::extract_text`: Rust tuple
comparison `(start_line, start_char) <= (end_line, end_char)` is
lexicographic. -/
def Selection.normalized (sel : Selection) : Nat × Nat × Nat × Nat :=
  if sel.start_line < sel.end_line ∨
      (sel.start_line = sel.end_line ∧ sel.start_char ≤ sel.end_char) then
    (sel.start_line, sel.start_char, sel.end_line, sel.end_char)
  else
    (sel.end_line, sel.end_char, sel.start_line, sel.start_char)

/-- `char_indices().nth(n).map(|(idx, _)| idx)`: the byte offset of the
`n`-th character, when it exists. -/
def nthByteIdx : List Char → Nat → Option Nat
  | [], _ => none
  | _ :: _, 0 => some 0
  | c :: cs, n + 1 => (nthByteIdx cs n).map (c.utf8Size + ·)

/-- `str::len()`: the UTF-8 byte length. -/
def byteLen (s : List Char) : Nat := (s.map Char.utf8Size).sum

/-- Byte-range slicing `&s[b0..b1]` at character granularity; in
`extract_text` both offsets always fall on character boundaries with
`b0 ≤ b1 ≤ s.len()`, where this agrees with the Rust slice. -/
def byteSlice : List Char → Nat → Nat → List Char
  | [], _, _ => []
  | c :: cs, b0, b1 =>
    if b0 = 0 then
      if c.utf8Size ≤ b1 then c :: byteSlice cs 0 (b1 - c.utf8Size) else []
    else byteSlice cs (b0 - c.utf8Size) (b1 - c.utf8Size)

/-- One iteration of the `for i in s_line..=e_line` loop of
`Selection::extract_text`: out-of-range lines contribute nothing, the char
range is chosen by position in the selection, char offsets become byte
offsets with `unwrap_or(0)` / `unwrap_or(line.len())`, and a newline
follows every line but the last. -/
def extractPiece (content : List Line) (s_line s_char e_line e_char i : Nat) :
    List Char :=
  match content.get? i with
  | none => []
  | some line =>
    let ls := lineToString line
    let start := if i = s_line then s_char else 0
    let e := if i = e_line then e_char else ls.length
    let byte_start := (nthByteIdx ls start).getD 0
    let byte_end := (nthByteIdx ls e).getD (byteLen ls)
    byteSlice ls byte_start byte_end ++ (if i < e_line then ['\n'] else [])

/-- The extraction loop over the normalized line range. -/
def extractCore (content : List Line) (s_line s_char e_line e_char : Nat) :
    List Char :=
  ((List.range' s_line (e_line + 1 - s_line)).map
    (extractPiece content s_line s_char e_line e_char)).flatten

/-- `Selection::extract_text`. -/
def Selection.extract_text (sel : Selection) (content : List Line) : List Char :=
  match sel.normalized with
  | (s_line, s_char, e_line, e_char) => extractCore content s_line s_char e_line e_char

/-- `models::SearchMatch`. -/
structure SearchMatch where
  line_index : Nat
  start_char : Nat
  end_char : Nat
deriving DecidableEq, Repr

/-- `models::SearchState` (`matches'` embeds the Rust field `matches`,
which is a reserved word in Lean). -/
structure SearchState where
  query : List Char
  matches' : List SearchMatch
  current_match_index : Nat
deriving DecidableEq, Repr

/-- The inner window comparison of `BrowserTab::perform_search`: `found`
is true exactly when the query is a prefix of the line's remainder (any
out-of-bounds position or mismatch sets `found = false`). -/
def matchesAt : List Char → List Char → Bool
  | _, [] => true
  | [], _ :: _ => false
  | c :: cs, q :: qs => c == q && matchesAt cs qs

/-- The per-line scan loop of `perform_search`, with fuel bounding the
iteration count: the loop condition is
`char_idx <= line.len().saturating_sub(query.len())`, a match advances by
the query length and a mismatch by one.  The query is non-empty at every
call site (the empty query clears the search state before scanning), so
each iteration advances `idx` by at least one and `line.length + 1` fuel
covers every execution of the Rust loop. -/
def scanLine (q line : List Char) : Nat → Nat → List (Nat × Nat)
  | 0, _ => []
  | fuel + 1, idx =>
    if idx ≤ line.length - q.length then
      if matchesAt (line.drop idx) q then
        (idx, idx + q.length) :: scanLine q line fuel (idx + q.length)
      else scanLine q line fuel (idx + 1)
    else []

/-- The `for (line_idx, line) in rendered_content.iter().enumerate()` loop
of `perform_search`, collecting matches line by line. -/
def searchLines (q : List Char) : Nat → List Line → List SearchMatch
  | _, [] => []
  | i, l :: ls =>
    let lc := lineToString l
    (scanLine q lc (lc.length + 1) 0).map (fun p => (⟨i, p.1, p.2⟩ : SearchMatch)) ++
      searchLines q (i + 1) ls

/-- `BrowserTab::perform_search`: empty query and empty match list both
yield `search_state = None`. -/
def perform_search (query : List Char) (rendered_content : List Line) :
    Option SearchState :=
  if query = [] then none
  else
    let ms := searchLines query 0 rendered_content
    if ms = [] then none else some ⟨query, ms, 0⟩

/-- The slice of `BrowserTab` that the visual-mode cursor handlers read
and write. -/
structure Tab where
  rendered_content : List Line
  cursor_line : Nat
  cursor_char : Nat
  selection : Option Selection
deriving DecidableEq, Repr

/-- The `KeyCode::Char('j')` arm of `handle_visual_mode`: move the cursor
down, then read `tab.rendered_content[tab.cursor_line].width()` — an
unchecked index, so `none` models the panic on an out-of-range line. -/
def visual_move_down (t : Tab) : Option Tab :=
  let max_lines := t.rendered_content.length - 1
  let cl := min (t.cursor_line + 1) max_lines
  match t.rendered_content.get? cl with
  | none => none
  | some line =>
    let line_len := line_width line
    let cc := min t.cursor_char line_len
    some { t with cursor_line := cl
                  cursor_char := cc
                  selection := t.selection.map (fun s => { s with end_line := cl, end_char := cc }) }

/-- The links produced by one `push_span_to_line` call, expressed over the
pre-call state (used to state the characterization lemma). -/
def linksAfterPush (r : DomRenderer) (c : List Char) : List LinkRegion :=
  match r.active_link_url with
  | none => r.links
  | some url =>
    match r.links.getLast? with
    | some last =>
      if last.line_index = r.lines.length ∧ last.url = url ∧
          last.x_end = r.current_line_width then
        r.links.dropLast ++ [{ last with x_end := r.current_line_width + strWidth c }]
      else
        r.links ++
          [(⟨url, r.lines.length, r.current_line_width,
             r.current_line_width + strWidth c⟩ : LinkRegion)]
    | none =>
      r.links ++
        [(⟨url, r.lines.length, r.current_line_width,
           r.current_line_width + strWidth c⟩ : LinkRegion)]

mutual

/-- The tree contains no `ul`/`ol` element (so the walk's list depth stays
at zero). -/
def noListNode : Node → Bool
  | .text _ => true
  | .comment => true
  | .element tag _ children =>
    !(tag == str "ul" || tag == str "ol") && noListNodes children

/-- `noListNode` over a child list. -/
def noListNodes : List Node → Bool
  | [] => true
  | n :: ns => noListNode n && noListNodes ns

end

/-- The line contains a 2-column character (an oversized indivisible
cluster forced through during a hard split). -/
def hasWide (l : Line) : Prop := ∃ sp ∈ l, ∃ c ∈ sp.content, charWidth c = 2

/-- Width bound for a produced line: within `M`, or within `M + 1` with a
2-column character forced through a 1-column space. -/
def lineOK (M : Nat) (l : Line) : Prop :=
  line_width l ≤ M ∨ (line_width l ≤ M + 1 ∧ hasWide l)

/-- The renderer invariant for the width claims: fixed `max_width`, list
depth zero, `current_line_width` tracks the current line, and every line
(pending or produced) satisfies the width bound. -/
def InvW (M : Nat) (r : DomRenderer) : Prop :=
  r.max_width = M ∧ r.list_depth = 0 ∧
  r.current_line_width = line_width r.current_line ∧
  lineOK M r.current_line ∧
  ∀ l ∈ r.lines, lineOK M l

/-- Ordering of link regions as they are emitted: later regions sit on a
later line, or further right on the same line (starting at or after the
earlier region's end). -/
def RLink (a b : LinkRegion) : Prop :=
  a.line_index < b.line_index ∨ (a.line_index = b.line_index ∧ a.x_end ≤ b.x_start)

/-- The link-registry invariant: regions are pairwise ordered and
non-overlapping, each region is non-degenerate-or-empty
(`x_start ≤ x_end`), and each region sits on an already-flushed line or on
the current line within the written width. -/
def InvL (r : DomRenderer) : Prop :=
  r.links.Pairwise RLink ∧
  (∀ lk ∈ r.links, lk.x_start ≤ lk.x_end) ∧
  (∀ lk ∈ r.links,
    lk.line_index < r.lines.length ∨
      (lk.line_index = r.lines.length ∧ lk.x_end ≤ r.current_line_width))

/-- Ordering of search matches as `perform_search` emits them. -/
def RMatch (a b : SearchMatch) : Prop :=
  a.line_index < b.line_index ∨ (a.line_index = b.line_index ∧ a.end_char ≤ b.start_char)

/-- The four walker fields that the spec's stack discipline is about. -/
def FieldsEq (r r' : DomRenderer) : Prop :=
  r'.current_style = r.current_style ∧
  r'.active_link_url = r.active_link_url ∧
  r'.preserve_whitespace = r.preserve_whitespace ∧
  r'.list_depth = r.list_depth

/-- The parse tree of `<h1>Hi</h1><p>See <a href="/x">this</a>.</p>` as a
lenient HTML parser delivers it (wrapped in `html`/`head`/`body`). -/
def doc2 : List Node :=
  [Node.element (str "html") [] [
    Node.element (str "head") [] [],
    Node.element (str "body") [] [
      Node.element (str "h1") [] [Node.text (str "Hi")],
      Node.element (str "p") [] [
        Node.text (str "See "),
        Node.element (str "a") [(str "href", str "/x")] [Node.text (str "this")],
        Node.text (str ".")]]]]

/-- A one-item unordered list holding a ten-column word. -/
def doc3 : List Node :=
  [Node.element (str "ul") [] [
    Node.element (str "li") [] [Node.text (str "aaaaaaaaaa")]]]

/-- A document consisting of a single text node. -/
def docA : List Node := [Node.text (str "a")]

/-- An anchor whose text is a single combining mark (display width 0). -/
def docZ : List Node :=
  [Node.element (str "a") [(str "href", str "/u")] [Node.text ['\u0301']]]

/-- A plain one-word document (used to witness the no-list theorems). -/
def docW1 : List Node := [Node.text (str "hello")]

/-- The renderer state `render 40 docW1` produces. -/
def resultW1 : DomRenderer :=
  ⟨[[⟨str "hello", {}⟩]], [], {}, [], 38, 0, none, false, 0⟩

/-- An anchor with two-column text (used to witness the link-registry
theorem). -/
def docW4 : List Node :=
  [Node.element (str "a") [(str "href", str "/u")] [Node.text (str "hi")]]

/-- The renderer state `render 40 docW4` produces. -/
def resultW4 : DomRenderer :=
  ⟨[[⟨str "hi", { underlined := true, fg := some Col.cyan }⟩]], [], {},
   [⟨str "/u", 0, 0, 2⟩], 38, 0, none, false, 0⟩

/-- A mid-line renderer state with an open link region ending at the
current width (used to witness the merge behavior). -/
def stateMerge : DomRenderer :=
  ⟨[], [⟨str "ab", {}⟩], {}, [⟨str "/u", 0, 0, 2⟩], 10, 2, some (str "/u"), false, 0⟩

/-- A single `<b>` element with no children (used to witness the stack
discipline). -/
def nodeB : Node := Node.element (str "b") [] []

/-! ### Basic lemmas about widths and the small renderer operations -/

theorem ite_le_nat {p : Prop} [inst : Decidable p] {a b n : Nat}
    (ha : a ≤ n) (hb : b ≤ n) : (if p then a else b) ≤ n := by
  cases inst with
  | isTrue h => simpa [if_pos h] using ha
  | isFalse h => simpa [if_neg h] using hb

theorem charWidth_le_two (c : Char) : charWidth c ≤ 2 := by
  unfold charWidth
  exact ite_le_nat (by omega) (ite_le_nat (by omega) (ite_le_nat (by omega)
    (ite_le_nat (by omega) (ite_le_nat (by omega) (ite_le_nat (by omega)
    (ite_le_nat (by omega) (ite_le_nat (by omega) (ite_le_nat (by omega)
    (ite_le_nat (by omega) (ite_le_nat (by omega) (by omega)))))))))))

theorem charWidth_space : charWidth ' ' = 1 := by decide

theorem strWidth_nil : strWidth [] = 0 := rfl

theorem strWidth_cons (c : Char) (s : List Char) :
    strWidth (c :: s) = charWidth c + strWidth s := by
  simp [strWidth]

theorem strWidth_append (a b : List Char) :
    strWidth (a ++ b) = strWidth a + strWidth b := by
  simp [strWidth]

theorem line_width_nil : line_width [] = 0 := rfl

theorem line_width_append (a b : Line) :
    line_width (a ++ b) = line_width a + line_width b := by
  simp [line_width]

theorem line_width_singleton (c : List Char) (st : Style) :
    line_width [⟨c, st⟩] = strWidth c := by
  simp [line_width]

theorem line_width_blank : line_width blankLine = 0 := by
  simp [blankLine, line_width, strWidth]

theorem fieldsEq_refl (r : DomRenderer) : FieldsEq r r := ⟨rfl, rfl, rfl, rfl⟩

theorem fieldsEq_trans {a b c : DomRenderer} (h₁ : FieldsEq a b) (h₂ : FieldsEq b c) :
    FieldsEq a c := by
  obtain ⟨s₁, l₁, p₁, d₁⟩ := h₁
  obtain ⟨s₂, l₂, p₂, d₂⟩ := h₂
  exact ⟨s₂.trans s₁, l₂.trans l₁, p₂.trans p₁, d₂.trans d₁⟩

theorem push_span_eq (r : DomRenderer) (c : List Char) :
    push_span_to_line r c =
      { r with current_line := r.current_line ++ [(⟨c, r.current_style⟩ : Span)]
               current_line_width := r.current_line_width + strWidth c
               links := linksAfterPush r c } := by
  obtain ⟨ls, cl, cs, lks, mw, clw, alu, pw, ld⟩ := r
  unfold push_span_to_line linksAfterPush
  cases alu with
  | none => rfl
  | some url =>
    dsimp only
    cases lks.getLast? with
    | none => rfl
    | some last =>
      dsimp only
      split <;> rfl

theorem push_span_fieldsEq (r : DomRenderer) (c : List Char) :
    FieldsEq r (push_span_to_line r c) := by
  rw [push_span_eq]
  exact ⟨rfl, rfl, rfl, rfl⟩

theorem push_span_max_width (r : DomRenderer) (c : List Char) :
    (push_span_to_line r c).max_width = r.max_width := by
  rw [push_span_eq]

theorem push_span_lines (r : DomRenderer) (c : List Char) :
    (push_span_to_line r c).lines = r.lines := by
  rw [push_span_eq]

theorem push_span_current_line (r : DomRenderer) (c : List Char) :
    (push_span_to_line r c).current_line =
      r.current_line ++ [(⟨c, r.current_style⟩ : Span)] := by
  rw [push_span_eq]

theorem push_span_current_line_width (r : DomRenderer) (c : List Char) :
    (push_span_to_line r c).current_line_width =
      r.current_line_width + strWidth c := by
  rw [push_span_eq]

theorem push_span_links (r : DomRenderer) (c : List Char) :
    (push_span_to_line r c).links = linksAfterPush r c := by
  rw [push_span_eq]

theorem flush_line_fieldsEq (r : DomRenderer) : FieldsEq r (flush_line r) := by
  unfold flush_line
  split
  · exact fieldsEq_refl r
  · exact ⟨rfl, rfl, rfl, rfl⟩

theorem flush_line_max_width (r : DomRenderer) :
    (flush_line r).max_width = r.max_width := by
  unfold flush_line
  split <;> rfl

theorem flush_line_links (r : DomRenderer) : (flush_line r).links = r.links := by
  unfold flush_line
  split <;> rfl

theorem flush_line_current_line (r : DomRenderer) :
    (flush_line r).current_line = [] ∨ flush_line r = r := by
  unfold flush_line
  split
  · right; rfl
  · left; rfl

theorem flush_line_current_line_nil (r : DomRenderer)
    (h : r.current_line = []) : flush_line r = r := by
  unfold flush_line
  exact if_pos h

theorem flush_line_cur_zero (r : DomRenderer)
    (h : r.current_line_width = line_width r.current_line) :
    (flush_line r).current_line_width = 0 := by
  unfold flush_line
  split
  · rename_i hnil
    rw [h, hnil, line_width_nil]
  · rfl

theorem apply_indentation_depth0 (r : DomRenderer) (h : r.list_depth = 0) :
    apply_indentation r = r := by
  unfold apply_indentation
  rw [if_neg]
  simp [h]

theorem apply_indentation_fieldsEq (r : DomRenderer) :
    FieldsEq r (apply_indentation r) := by
  unfold apply_indentation
  split
  · exact push_span_fieldsEq ..
  · exact fieldsEq_refl r

theorem add_vertical_space_fieldsEq (r : DomRenderer) :
    FieldsEq r (add_vertical_space r) := by
  simp only [add_vertical_space]
  have h := flush_line_fieldsEq r
  repeat' split
  · exact h
  · exact h
  · exact ⟨h.1, h.2.1, h.2.2.1, h.2.2.2⟩

theorem add_vertical_space_max_width (r : DomRenderer) :
    (add_vertical_space r).max_width = r.max_width := by
  simp only [add_vertical_space]
  have h := flush_line_max_width r
  repeat' split
  all_goals exact h

theorem add_vertical_space_links (r : DomRenderer) :
    (add_vertical_space r).links = r.links := by
  simp only [add_vertical_space]
  have h := flush_line_links r
  repeat' split
  all_goals exact h

/-! ### The width invariant `InvW`: preservation and success of the walk
on list-free trees -/

theorem strWidth_replicate_space (n : Nat) :
    strWidth (List.replicate n ' ') = n := by
  induction n with
  | zero => rfl
  | succ k ih =>
    rw [List.replicate_succ, strWidth_cons, charWidth_space, ih]
    omega

theorem lineOK_nil (M : Nat) : lineOK M [] :=
  Or.inl (by rw [line_width_nil]; omega)

theorem lineOK_blank (M : Nat) : lineOK M blankLine :=
  Or.inl (by rw [line_width_blank]; omega)

theorem invW_new (w : Nat) : InvW (w - 2) (DomRenderer.new w) :=
  ⟨rfl, rfl, rfl, lineOK_nil _, by intro l hl; exact absurd hl (List.not_mem_nil l)⟩

theorem invW_flush {M : Nat} {r : DomRenderer} (h : InvW M r) :
    InvW M (flush_line r) := by
  obtain ⟨h1, h2, h3, h4, h5⟩ := h
  unfold flush_line
  split
  · exact ⟨h1, h2, h3, h4, h5⟩
  · refine ⟨h1, h2, rfl, lineOK_nil _, ?_⟩
    intro l hl
    rcases List.mem_append.mp hl with h | h
    · exact h5 l h
    · rw [List.mem_singleton] at h
      exact h ▸ h4

theorem invW_vertical {M : Nat} {r : DomRenderer} (h : InvW M r) :
    InvW M (add_vertical_space r) := by
  have hf := invW_flush h
  simp only [add_vertical_space]
  repeat' split
  · exact hf
  · obtain ⟨h1, h2, h3, h4, h5⟩ := hf
    refine ⟨h1, h2, h3, h4, ?_⟩
    intro l hl
    rcases List.mem_append.mp hl with h | h
    · exact h5 l h
    · rw [List.mem_singleton] at h
      exact h ▸ lineOK_blank M
  · exact hf

theorem invW_push_span_le {M : Nat} {r : DomRenderer} {c : List Char}
    (h : InvW M r) (hw : r.current_line_width + strWidth c ≤ M) :
    InvW M (push_span_to_line r c) := by
  obtain ⟨h1, h2, h3, h4, h5⟩ := h
  rw [push_span_eq]
  refine ⟨h1, h2, ?_, Or.inl ?_, h5⟩
  · simp [line_width_append, line_width_singleton, h3]
  · rw [line_width_append, line_width_singleton, ← h3]
    exact hw

theorem invW_push_span_wide {M : Nat} {r : DomRenderer} {ch : Char}
    (h : InvW M r) (hc : charWidth ch = 2)
    (hw : r.current_line_width + 2 ≤ M + 1) :
    InvW M (push_span_to_line r [ch]) := by
  obtain ⟨h1, h2, h3, h4, h5⟩ := h
  rw [push_span_eq]
  refine ⟨h1, h2, ?_, Or.inr ⟨?_, ?_⟩, h5⟩
  · simp [line_width_append, line_width_singleton, h3]
  · rw [line_width_append, line_width_singleton, ← h3, strWidth_cons,
      strWidth_nil, hc]
    omega
  · exact ⟨⟨[ch], r.current_style⟩,
      List.mem_append.mpr (Or.inr (List.mem_singleton.mpr rfl)),
      ch, List.mem_singleton.mpr rfl, hc⟩

theorem takeCount_width_le : ∀ (rem : List Char) (avail : Nat),
    strWidth (rem.take (takeCount rem avail)) ≤ avail := by
  intro rem
  induction rem with
  | nil => intro avail; simp [takeCount, strWidth_nil]
  | cons c cs ih =>
    intro avail
    unfold takeCount
    split
    · rename_i hc
      rw [List.take_succ_cons, strWidth_cons]
      have := ih (avail - charWidth c)
      omega
    · simp [strWidth_nil]

theorem takeCount_zero {c : Char} {cs : List Char} {avail : Nat}
    (h : takeCount (c :: cs) avail = 0) : avail < charWidth c := by
  unfold takeCount at h
  split at h
  · omega
  · rename_i hc
    omega

theorem invW_hardSplit {M : Nat} : ∀ (fuel : Nat) (rem : List Char) (r : DomRenderer),
    rem.length < fuel → InvW M r → 1 ≤ M → r.current_line_width = 0 →
    ∃ r', hardSplitFuel fuel r rem = some r' ∧ InvW M r' := by
  intro fuel
  induction fuel with
  | zero => intro rem r hlt _ _ _; omega
  | succ f ih =>
    intro rem r hlt hInv hM hcur
    simp only [hardSplitFuel]
    split
    · exact ⟨r, rfl, hInv⟩
    · rename_i hne
      rw [apply_indentation_depth0 r hInv.2.1]
      have havail : r.max_width - r.current_line_width = M := by
        rw [hInv.1, hcur]
        omega
      rw [havail]
      rw [if_neg (by omega : ¬ M = 0)]
      by_cases hk0 : takeCount rem M = 0
      · obtain ⟨c, cs, rfl⟩ : ∃ c cs, rem = c :: cs := by
          cases rem with
          | nil => exact absurd rfl hne
          | cons c cs => exact ⟨c, cs, rfl⟩
        have hcw : M < charWidth c := takeCount_zero hk0
        have hle2 := charWidth_le_two c
        have hc2 : charWidth c = 2 := by omega
        rw [hk0, if_pos rfl]
        have htake : (c :: cs).take 1 = [c] := rfl
        have hdrop : (c :: cs).drop 1 = cs := rfl
        rw [htake, hdrop]
        have hpush : InvW M (push_span_to_line r [c]) :=
          invW_push_span_wide hInv hc2 (by omega)
        split
        · exact ⟨_, rfl, hpush⟩
        · have hflush := invW_flush hpush
          exact ih cs (flush_line (push_span_to_line r [c]))
            (by simp at hlt; omega) hflush hM
            (flush_line_cur_zero _ hpush.2.2.1)
      · rw [if_neg hk0]
        have hwle : strWidth (rem.take (takeCount rem M)) ≤ M :=
          takeCount_width_le rem M
        have hpush : InvW M (push_span_to_line r (rem.take (takeCount rem M))) :=
          invW_push_span_le hInv (by omega)
        split
        · exact ⟨_, rfl, hpush⟩
        · have hflush := invW_flush hpush
          refine ih (rem.drop (takeCount rem M)) _ ?_ hflush hM
            (flush_line_cur_zero _ hpush.2.2.1)
          have hlen : (rem.drop (takeCount rem M)).length = rem.length - takeCount rem M :=
            List.length_drop _ _
          have hrl : 1 ≤ rem.length := by
            cases rem with
            | nil => exact absurd rfl hne
            | cons _ _ => simp
          omega

theorem invW_push_word {M : Nat} {r : DomRenderer} (w : List Char)
    (h : InvW M r) (hM : 1 ≤ M) :
    ∃ r', push_word r w = some r' ∧ InvW M r' := by
  simp only [push_word]
  split
  · exact ⟨r, rfl, h⟩
  · rw [apply_indentation_depth0 r h.2.1]
    split
    · rename_i hfits
      rw [h.1] at hfits
      exact ⟨_, rfl, invW_push_span_le h hfits⟩
    · split
      · rename_i hno hwle
        rw [h.1] at hwle
        have hf := invW_flush h
        rw [apply_indentation_depth0 _ hf.2.1]
        have hz : (flush_line r).current_line_width = 0 :=
          flush_line_cur_zero r h.2.2.1
        exact ⟨_, rfl, invW_push_span_le hf (by omega)⟩
      · have hpre : ∀ r₀, r₀ = (if 0 < r.current_line_width then flush_line r else r) →
            InvW M r₀ ∧ r₀.current_line_width = 0 := by
          intro r₀ heq
          subst heq
          split
          · exact ⟨invW_flush h, flush_line_cur_zero r h.2.2.1⟩
          · rename_i hpos
            exact ⟨h, by omega⟩
        obtain ⟨hInv₀, hcur₀⟩ := hpre _ rfl
        exact invW_hardSplit (w.length + 1) w _ (by omega) hInv₀ hM hcur₀

theorem invW_walkWords {M : Nat} : ∀ (ws : List (List Char)) (r : DomRenderer),
    InvW M r → 1 ≤ M → ∃ r', walkWords r ws = some r' ∧ InvW M r' := by
  intro ws
  induction ws with
  | nil => intro r h _; exact ⟨r, rfl, h⟩
  | cons w ws ih =>
    intro r h hM
    simp only [walkWords]
    have hsp : ∃ r₁,
        (if 0 < r.current_line_width ∧ r.current_line ≠ [] then push_word r [' ']
         else some r) = some r₁ ∧ InvW M r₁ := by
      split
      · exact invW_push_word [' '] h hM
      · exact ⟨r, rfl, h⟩
    obtain ⟨r₁, h1, hi1⟩ := hsp
    rw [h1]
    dsimp only
    obtain ⟨r₂, h2, hi2⟩ := invW_push_word w hi1 hM
    rw [h2]
    exact ih r₂ hi2 hM

theorem invW_walkTextPre {M : Nat} : ∀ (ls : List (List Char)) (r : DomRenderer),
    InvW M r → 1 ≤ M → ∃ r', walkTextPre r ls = some r' ∧ InvW M r' := by
  intro ls
  induction ls with
  | nil => intro r h _; exact ⟨r, rfl, h⟩
  | cons line rest ih =>
    intro r h hM
    simp only [walkTextPre]
    obtain ⟨r₁, h1, hi1⟩ := invW_push_word line h hM
    rw [h1]
    dsimp only
    exact ih (flush_line r₁) (invW_flush hi1) hM

theorem invW_walkEntry {M : Nat} {r : DomRenderer} {tag : List Char}
    {attrs : List (List Char × List Char)} (h : InvW M r) (hM : 1 ≤ M)
    (hul : ¬(tag = str "ul" ∨ tag = str "ol")) :
    ∃ r1, walkEntry r tag attrs = some r1 ∧ InvW M r1 := by
  unfold walkEntry
  by_cases c1 : tag = str "b" ∨ tag = str "strong"
  · rw [if_pos c1]; exact ⟨_, rfl, h⟩
  rw [if_neg c1]
  by_cases c2 : tag = str "i" ∨ tag = str "em"
  · rw [if_pos c2]; exact ⟨_, rfl, h⟩
  rw [if_neg c2]
  by_cases c3 : tag = str "a"
  · rw [if_pos c3]
    cases hh : getAttr attrs (str "href") with
    | none => exact ⟨_, rfl, h⟩
    | some href => exact ⟨_, rfl, h⟩
  rw [if_neg c3]
  by_cases c4 : tag = str "h1" ∨ tag = str "h2" ∨ tag = str "h3"
  · rw [if_pos c4]; exact ⟨_, rfl, invW_vertical h⟩
  rw [if_neg c4]
  by_cases c5 : tag = str "pre" ∨ tag = str "code"
  · rw [if_pos c5]; exact ⟨_, rfl, invW_flush h⟩
  rw [if_neg c5]
  rw [if_neg hul]
  by_cases c7 : tag = str "li"
  · rw [if_pos c7]
    dsimp only
    exact invW_push_word _ (invW_flush h) hM
  rw [if_neg c7]
  by_cases c8 : tag = str "img"
  · rw [if_pos c8]
    dsimp only
    obtain ⟨r'', hpw, hi⟩ :=
      invW_push_word
        (r := { r with current_style := { r.current_style with fg := some Col.darkGray } })
        (str "[" ++ (getAttr attrs (str "alt")).getD (str "IMAGE") ++ str "] ")
        ⟨h.1, h.2.1, h.2.2.1, h.2.2.2.1, h.2.2.2.2⟩ hM
    rw [hpw]
    dsimp only
    exact ⟨_, rfl, hi⟩
  rw [if_neg c8]
  by_cases c9 : tag = str "br"
  · rw [if_pos c9]; exact ⟨_, rfl, invW_flush h⟩
  rw [if_neg c9]
  by_cases c10 : tag = str "p" ∨ tag = str "main" ∨ tag = str "article" ∨
      tag = str "section" ∨ tag = str "table" ∨ tag = str "aside"
  · rw [if_pos c10]; exact ⟨_, rfl, invW_vertical h⟩
  rw [if_neg c10]
  by_cases c11 : tag = str "div" ∨ tag = str "header" ∨ tag = str "footer" ∨
      tag = str "nav" ∨ tag = str "tr"
  · rw [if_pos c11]; exact ⟨_, rfl, invW_flush h⟩
  rw [if_neg c11]
  by_cases c12 : tag = str "td" ∨ tag = str "th"
  · rw [if_pos c12]; exact invW_push_word (str "  ") h hM
  rw [if_neg c12]
  by_cases c13 : tag = str "hr"
  · rw [if_pos c13]
    dsimp only
    obtain ⟨r'', hpw, hi⟩ :=
      invW_push_word (List.replicate (add_vertical_space r).max_width '-')
        (invW_vertical h) hM
    rw [hpw]
    exact ⟨_, rfl, invW_vertical hi⟩
  rw [if_neg c13]
  exact ⟨_, rfl, h⟩

theorem invW_walkExit {M : Nat} {r3 : DomRenderer} (tag : List Char)
    (h : InvW M r3) : InvW M (walkExit tag r3) := by
  unfold walkExit
  split
  · refine invW_flush ⟨h.1, ?_, h.2.2.1, h.2.2.2.1, h.2.2.2.2⟩
    have := h.2.1
    show r3.list_depth - 1 = 0
    omega
  split
  · exact invW_vertical h
  split
  · exact invW_flush h
  · exact h

mutual

theorem invW_walkNode {M : Nat} (n : Node) : ∀ (r : DomRenderer),
    noListNode n = true → InvW M r → 1 ≤ M →
    ∃ r', walkNode r n = some r' ∧ InvW M r' := by
  intro r hnl h hM
  cases n with
  | text s =>
    simp only [walkNode]
    split
    · exact invW_walkTextPre (rustLines s) r h hM
    · exact invW_walkWords (split_whitespace s) r h hM
  | comment => exact ⟨r, rfl, h⟩
  | element tag attrs children =>
    simp only [noListNode, Bool.and_eq_true, Bool.not_eq_true',
      Bool.or_eq_false_iff, beq_eq_false_iff_ne, ne_eq] at hnl
    have hul : ¬(tag = str "ul" ∨ tag = str "ol") := by
      rintro (h' | h')
      · exact hnl.1.1 h'
      · exact hnl.1.2 h'
    simp only [walkNode]
    split
    · exact ⟨r, rfl, h⟩
    split
    · exact ⟨r, rfl, h⟩
    · obtain ⟨r1, hEntry, hi1⟩ := invW_walkEntry h hM hul
      rw [hEntry]
      dsimp only
      obtain ⟨r2, hChildren, hi2⟩ := invW_walkNodes children r1 hnl.2 hi1 hM
      rw [hChildren]
      dsimp only
      exact ⟨_, rfl, invW_walkExit tag hi2⟩

theorem invW_walkNodes {M : Nat} (ns : List Node) : ∀ (r : DomRenderer),
    noListNodes ns = true → InvW M r → 1 ≤ M →
    ∃ r', walkNodes r ns = some r' ∧ InvW M r' := by
  intro r hnl h hM
  cases ns with
  | nil => exact ⟨r, rfl, h⟩
  | cons n ns' =>
    have hsplit : noListNode n = true ∧ noListNodes ns' = true := by
      simpa [noListNodes, Bool.and_eq_true] using hnl
    simp only [walkNodes]
    obtain ⟨r1, h1, hi1⟩ := invW_walkNode n r hsplit.1 h hM
    rw [h1]
    dsimp only
    exact invW_walkNodes ns' r1 hsplit.2 hi1 hM

end

/-! ### Stack discipline: the walk restores style, link, whitespace mode
and list depth -/

theorem hardSplitFuel_fieldsEq : ∀ (fuel : Nat) (r : DomRenderer) (rem : List Char)
    (r' : DomRenderer), hardSplitFuel fuel r rem = some r' → FieldsEq r r' := by
  intro fuel
  induction fuel with
  | zero => intro r rem r' h; simp [hardSplitFuel] at h
  | succ f ih =>
    intro r rem r' h
    simp only [hardSplitFuel] at h
    split at h
    · obtain rfl := Option.some.inj h
      exact fieldsEq_refl r
    · split at h
      · exact fieldsEq_trans
          (fieldsEq_trans (apply_indentation_fieldsEq r) (flush_line_fieldsEq _))
          (ih _ _ _ h)
      · split at h <;> split at h
        all_goals first
          | (obtain rfl := Option.some.inj h
             exact fieldsEq_trans (apply_indentation_fieldsEq r) (push_span_fieldsEq _ _))
          | exact fieldsEq_trans (apply_indentation_fieldsEq r)
              (fieldsEq_trans (push_span_fieldsEq _ _)
                (fieldsEq_trans (flush_line_fieldsEq _) (ih _ _ _ h)))

theorem push_word_fieldsEq {r : DomRenderer} {w : List Char} {r' : DomRenderer}
    (h : push_word r w = some r') : FieldsEq r r' := by
  simp only [push_word] at h
  split at h
  · obtain rfl := Option.some.inj h
    exact fieldsEq_refl r
  · split at h
    · obtain rfl := Option.some.inj h
      exact fieldsEq_trans (apply_indentation_fieldsEq r) (push_span_fieldsEq _ _)
    · split at h
      · obtain rfl := Option.some.inj h
        exact fieldsEq_trans (apply_indentation_fieldsEq r)
          (fieldsEq_trans (flush_line_fieldsEq _)
            (fieldsEq_trans (apply_indentation_fieldsEq _) (push_span_fieldsEq _ _)))
      · split at h
        · exact fieldsEq_trans (apply_indentation_fieldsEq r)
            (fieldsEq_trans (flush_line_fieldsEq _) (hardSplitFuel_fieldsEq _ _ _ _ h))
        · exact fieldsEq_trans (apply_indentation_fieldsEq r)
            (hardSplitFuel_fieldsEq _ _ _ _ h)

theorem walkWords_fieldsEq : ∀ (ws : List (List Char)) (r r' : DomRenderer),
    walkWords r ws = some r' → FieldsEq r r' := by
  intro ws
  induction ws with
  | nil =>
    intro r r' h
    obtain rfl := Option.some.inj h
    exact fieldsEq_refl r
  | cons w ws ih =>
    intro r r' h
    simp only [walkWords] at h
    cases h1 : (if 0 < r.current_line_width ∧ r.current_line ≠ [] then push_word r [' ']
                else some r) with
    | none => rw [h1] at h; exact Option.noConfusion h
    | some r₁ =>
      rw [h1] at h
      dsimp only at h
      cases h2 : push_word r₁ w with
      | none => rw [h2] at h; exact Option.noConfusion h
      | some r₂ =>
        rw [h2] at h
        dsimp only at h
        have hf1 : FieldsEq r r₁ := by
          split at h1
          · exact push_word_fieldsEq h1
          · obtain rfl := Option.some.inj h1
            exact fieldsEq_refl r
        exact fieldsEq_trans hf1
          (fieldsEq_trans (push_word_fieldsEq h2) (ih _ _ h))

theorem walkTextPre_fieldsEq : ∀ (ls : List (List Char)) (r r' : DomRenderer),
    walkTextPre r ls = some r' → FieldsEq r r' := by
  intro ls
  induction ls with
  | nil =>
    intro r r' h
    obtain rfl := Option.some.inj h
    exact fieldsEq_refl r
  | cons line rest ih =>
    intro r r' h
    simp only [walkTextPre] at h
    cases h1 : push_word r line with
    | none => rw [h1] at h; exact Option.noConfusion h
    | some r₁ =>
      rw [h1] at h
      dsimp only at h
      exact fieldsEq_trans (push_word_fieldsEq h1)
        (fieldsEq_trans (flush_line_fieldsEq r₁) (ih _ _ h))

theorem walkEntry_depth_ul {r : DomRenderer} {tag : List Char}
    {attrs : List (List Char × List Char)} {r1 : DomRenderer}
    (htag : tag = str "ul" ∨ tag = str "ol")
    (h : walkEntry r tag attrs = some r1) :
    r1.list_depth = r.list_depth + 1 := by
  unfold walkEntry at h
  rcases htag with rfl | rfl <;>
  · rw [if_neg (by decide), if_neg (by decide), if_neg (by decide),
      if_neg (by decide), if_neg (by decide), if_pos (by decide)] at h
    obtain rfl := Option.some.inj h
    show (flush_line r).list_depth + 1 = r.list_depth + 1
    rw [(flush_line_fieldsEq r).2.2.2]

theorem walkEntry_depth_other {r : DomRenderer} {tag : List Char}
    {attrs : List (List Char × List Char)} {r1 : DomRenderer}
    (htag : ¬(tag = str "ul" ∨ tag = str "ol"))
    (h : walkEntry r tag attrs = some r1) :
    r1.list_depth = r.list_depth := by
  unfold walkEntry at h
  by_cases c1 : tag = str "b" ∨ tag = str "strong"
  · rw [if_pos c1] at h
    obtain rfl := Option.some.inj h
    rfl
  rw [if_neg c1] at h
  by_cases c2 : tag = str "i" ∨ tag = str "em"
  · rw [if_pos c2] at h
    obtain rfl := Option.some.inj h
    rfl
  rw [if_neg c2] at h
  by_cases c3 : tag = str "a"
  · rw [if_pos c3] at h
    cases hh : getAttr attrs (str "href") <;> rw [hh] at h <;>
      (obtain rfl := Option.some.inj h; rfl)
  rw [if_neg c3] at h
  by_cases c4 : tag = str "h1" ∨ tag = str "h2" ∨ tag = str "h3"
  · rw [if_pos c4] at h
    obtain rfl := Option.some.inj h
    exact (add_vertical_space_fieldsEq r).2.2.2
  rw [if_neg c4] at h
  by_cases c5 : tag = str "pre" ∨ tag = str "code"
  · rw [if_pos c5] at h
    obtain rfl := Option.some.inj h
    exact (flush_line_fieldsEq r).2.2.2
  rw [if_neg c5] at h
  rw [if_neg htag] at h
  by_cases c7 : tag = str "li"
  · rw [if_pos c7] at h
    dsimp only at h
    exact ((push_word_fieldsEq h).2.2.2).trans (flush_line_fieldsEq r).2.2.2
  rw [if_neg c7] at h
  by_cases c8 : tag = str "img"
  · rw [if_pos c8] at h
    dsimp only at h
    cases hpw : push_word
        { r with current_style := { r.current_style with fg := some Col.darkGray } }
        (str "[" ++ (getAttr attrs (str "alt")).getD (str "IMAGE") ++ str "] ") with
    | none => rw [hpw] at h; exact Option.noConfusion h
    | some r'' =>
      rw [hpw] at h
      dsimp only at h
      obtain rfl := Option.some.inj h
      exact (push_word_fieldsEq hpw).2.2.2
  rw [if_neg c8] at h
  by_cases c9 : tag = str "br"
  · rw [if_pos c9] at h
    obtain rfl := Option.some.inj h
    exact (flush_line_fieldsEq r).2.2.2
  rw [if_neg c9] at h
  by_cases c10 : tag = str "p" ∨ tag = str "main" ∨ tag = str "article" ∨
      tag = str "section" ∨ tag = str "table" ∨ tag = str "aside"
  · rw [if_pos c10] at h
    obtain rfl := Option.some.inj h
    exact (add_vertical_space_fieldsEq r).2.2.2
  rw [if_neg c10] at h
  by_cases c11 : tag = str "div" ∨ tag = str "header" ∨ tag = str "footer" ∨
      tag = str "nav" ∨ tag = str "tr"
  · rw [if_pos c11] at h
    obtain rfl := Option.some.inj h
    exact (flush_line_fieldsEq r).2.2.2
  rw [if_neg c11] at h
  by_cases c12 : tag = str "td" ∨ tag = str "th"
  · rw [if_pos c12] at h
    exact (push_word_fieldsEq h).2.2.2
  rw [if_neg c12] at h
  by_cases c13 : tag = str "hr"
  · rw [if_pos c13] at h
    dsimp only at h
    cases hpw : push_word (add_vertical_space r)
        (List.replicate (add_vertical_space r).max_width '-') with
    | none => rw [hpw] at h; exact Option.noConfusion h
    | some r'' =>
      rw [hpw] at h
      dsimp only at h
      obtain rfl := Option.some.inj h
      exact ((add_vertical_space_fieldsEq r'').2.2.2).trans
        (((push_word_fieldsEq hpw).2.2.2).trans (add_vertical_space_fieldsEq r).2.2.2)
  rw [if_neg c13] at h
  obtain rfl := Option.some.inj h
  rfl

theorem walkExit_restores (tag : List Char) (r3 : DomRenderer) :
    (walkExit tag r3).current_style = r3.current_style ∧
    (walkExit tag r3).active_link_url = r3.active_link_url ∧
    (walkExit tag r3).preserve_whitespace = r3.preserve_whitespace := by
  unfold walkExit
  split
  · exact ⟨(flush_line_fieldsEq _).1, (flush_line_fieldsEq _).2.1,
      (flush_line_fieldsEq _).2.2.1⟩
  split
  · exact ⟨(add_vertical_space_fieldsEq _).1, (add_vertical_space_fieldsEq _).2.1,
      (add_vertical_space_fieldsEq _).2.2.1⟩
  split
  · exact ⟨(flush_line_fieldsEq _).1, (flush_line_fieldsEq _).2.1,
      (flush_line_fieldsEq _).2.2.1⟩
  · exact ⟨rfl, rfl, rfl⟩

theorem walkExit_depth_ul {tag : List Char} (r3 : DomRenderer)
    (htag : tag = str "ul" ∨ tag = str "ol") :
    (walkExit tag r3).list_depth = r3.list_depth - 1 := by
  unfold walkExit
  rw [if_pos htag]
  exact (flush_line_fieldsEq _).2.2.2

theorem walkExit_depth_other {tag : List Char} (r3 : DomRenderer)
    (htag : ¬(tag = str "ul" ∨ tag = str "ol")) :
    (walkExit tag r3).list_depth = r3.list_depth := by
  unfold walkExit
  rw [if_neg htag]
  split
  · exact (add_vertical_space_fieldsEq _).2.2.2
  split
  · exact (flush_line_fieldsEq _).2.2.2
  · rfl

mutual

theorem walkNode_fieldsEq (n : Node) : ∀ (r r' : DomRenderer),
    walkNode r n = some r' → FieldsEq r r' := by
  intro r r' h
  cases n with
  | text s =>
    simp only [walkNode] at h
    split at h
    · exact walkTextPre_fieldsEq _ _ _ h
    · exact walkWords_fieldsEq _ _ _ h
  | comment =>
    obtain rfl := Option.some.inj h
    exact fieldsEq_refl r
  | element tag attrs children =>
    simp only [walkNode] at h
    split at h
    · obtain rfl := Option.some.inj h
      exact fieldsEq_refl r
    split at h
    · obtain rfl := Option.some.inj h
      exact fieldsEq_refl r
    · cases hE : walkEntry r tag attrs with
      | none => rw [hE] at h; exact Option.noConfusion h
      | some r1 =>
        rw [hE] at h
        dsimp only at h
        cases hC : walkNodes r1 children with
        | none => rw [hC] at h; exact Option.noConfusion h
        | some r2 =>
          rw [hC] at h
          dsimp only at h
          obtain rfl := Option.some.inj h
          have hcd : r2.list_depth = r1.list_depth :=
            (walkNodes_fieldsEq children r1 r2 hC).2.2.2
          refine ⟨?_, ?_, ?_, ?_⟩
          · exact (walkExit_restores tag _).1
          · exact (walkExit_restores tag _).2.1
          · exact (walkExit_restores tag _).2.2
          · by_cases hul : tag = str "ul" ∨ tag = str "ol"
            · rw [walkExit_depth_ul _ hul]
              have h1 := walkEntry_depth_ul hul hE
              show r2.list_depth - 1 = r.list_depth
              omega
            · rw [walkExit_depth_other _ hul]
              have h1 := walkEntry_depth_other hul hE
              show r2.list_depth = r.list_depth
              omega

theorem walkNodes_fieldsEq (ns : List Node) : ∀ (r r' : DomRenderer),
    walkNodes r ns = some r' → FieldsEq r r' := by
  intro r r' h
  cases ns with
  | nil =>
    obtain rfl := Option.some.inj h
    exact fieldsEq_refl r
  | cons n ns' =>
    simp only [walkNodes] at h
    cases h1 : walkNode r n with
    | none => rw [h1] at h; exact Option.noConfusion h
    | some r1 =>
      rw [h1] at h
      dsimp only at h
      exact fieldsEq_trans (walkNode_fieldsEq n r r1 h1)
        (walkNodes_fieldsEq ns' r1 r' h)

end

/-! ### The link-registry invariant `InvL` -/

theorem invL_push_span {r : DomRenderer} (c : List Char) (h : InvL r) :
    InvL (push_span_to_line r c) := by
  obtain ⟨hpw, hse, hbound⟩ := h
  rw [push_span_eq]
  have hbound' : ∀ lk ∈ r.links, lk.line_index < r.lines.length ∨
      (lk.line_index = r.lines.length ∧
        lk.x_end ≤ r.current_line_width + strWidth c) := by
    intro lk hm
    rcases hbound lk hm with h | ⟨h1, h2⟩
    · exact Or.inl h
    · exact Or.inr ⟨h1, by omega⟩
  refine ⟨?_, ?_, ?_⟩ <;>
    (show _; unfold linksAfterPush) <;>
    cases hurl : r.active_link_url <;> dsimp only
  · exact hpw
  · rename_i u
    cases hlast : r.links.getLast? with
    | none =>
      dsimp only
      refine List.pairwise_append.mpr ⟨hpw, List.pairwise_singleton _ _, ?_⟩
      intro a ha b hb
      rw [List.mem_singleton] at hb
      subst hb
      rcases hbound a ha with h | ⟨h1, h2⟩
      · exact Or.inl h
      · exact Or.inr ⟨h1, h2⟩
    | some last =>
      dsimp only
      split
      · rename_i hcond
        have hne : r.links ≠ [] := by
          intro he
          rw [he] at hlast
          exact Option.noConfusion hlast
        rw [List.getLast?_eq_getLast _ hne] at hlast
        obtain rfl := Option.some.inj hlast
        have hdecomp : r.links.dropLast ++ [r.links.getLast hne] = r.links :=
          List.dropLast_append_getLast hne
        have hpw' : (r.links.dropLast ++ [r.links.getLast hne]).Pairwise RLink := by
          rw [hdecomp]; exact hpw
        rcases List.pairwise_append.mp hpw' with ⟨hp1, _, hcross⟩
        refine List.pairwise_append.mpr ⟨hp1, List.pairwise_singleton _ _, ?_⟩
        intro a ha b hb
        rw [List.mem_singleton] at hb
        subst hb
        have := hcross a ha _ (List.mem_singleton.mpr rfl)
        rcases this with h | ⟨h1, h2⟩
        · exact Or.inl h
        · exact Or.inr ⟨h1, h2⟩
      · refine List.pairwise_append.mpr ⟨hpw, List.pairwise_singleton _ _, ?_⟩
        intro a ha b hb
        rw [List.mem_singleton] at hb
        subst hb
        rcases hbound a ha with h | ⟨h1, h2⟩
        · exact Or.inl h
        · exact Or.inr ⟨h1, h2⟩
  · exact hse
  · rename_i u
    cases hlast : r.links.getLast? with
    | none =>
      dsimp only
      intro lk hm
      rcases List.mem_append.mp hm with h | h
      · exact hse lk h
      · rw [List.mem_singleton] at h
        subst h
        show r.current_line_width ≤ r.current_line_width + strWidth c
        omega
    | some last =>
      dsimp only
      split
      · rename_i hcond
        intro lk hm
        rcases List.mem_append.mp hm with h | h
        · exact hse lk (List.dropLast_subset _ h)
        · rw [List.mem_singleton] at h
          subst h
          show last.x_start ≤ r.current_line_width + strWidth c
          have h1 : last.x_start ≤ last.x_end := by
            have hne : r.links ≠ [] := by
              intro he
              rw [he] at hlast
              exact Option.noConfusion hlast
            rw [List.getLast?_eq_getLast _ hne] at hlast
            obtain rfl := Option.some.inj hlast
            exact hse _ (List.getLast_mem hne)
          have h2 := hcond.2.2
          omega
      · intro lk hm
        rcases List.mem_append.mp hm with h | h
        · exact hse lk h
        · rw [List.mem_singleton] at h
          subst h
          show r.current_line_width ≤ r.current_line_width + strWidth c
          omega
  · exact hbound'
  · rename_i u
    cases hlast : r.links.getLast? with
    | none =>
      dsimp only
      intro lk hm
      rcases List.mem_append.mp hm with h | h
      · exact hbound' lk h
      · rw [List.mem_singleton] at h
        subst h
        exact Or.inr ⟨rfl, le_refl _⟩
    | some last =>
      dsimp only
      split
      · rename_i hcond
        intro lk hm
        rcases List.mem_append.mp hm with h | h
        · exact hbound' lk (List.dropLast_subset _ h)
        · rw [List.mem_singleton] at h
          subst h
          exact Or.inr ⟨hcond.1, le_refl _⟩
      · intro lk hm
        rcases List.mem_append.mp hm with h | h
        · exact hbound' lk h
        · rw [List.mem_singleton] at h
          subst h
          exact Or.inr ⟨rfl, le_refl _⟩

theorem invL_flush {r : DomRenderer} (h : InvL r) : InvL (flush_line r) := by
  obtain ⟨hpw, hse, hbound⟩ := h
  unfold flush_line
  split
  · exact ⟨hpw, hse, hbound⟩
  · refine ⟨hpw, hse, ?_⟩
    intro lk hm
    left
    show lk.line_index < (r.lines ++ [r.current_line]).length
    rw [List.length_append]
    rcases hbound lk hm with h | ⟨h1, _⟩
    · simp
      omega
    · simp
      omega

theorem invL_vertical {r : DomRenderer} (h : InvL r) : InvL (add_vertical_space r) := by
  have hf := invL_flush h
  obtain ⟨hpw, hse, hbound⟩ := hf
  simp only [add_vertical_space]
  repeat' split
  · exact ⟨hpw, hse, hbound⟩
  · refine ⟨hpw, hse, ?_⟩
    intro lk hm
    left
    show lk.line_index < ((flush_line r).lines ++ [blankLine]).length
    rw [List.length_append]
    rcases hbound lk hm with h | ⟨h1, _⟩
    · simp
      omega
    · simp
      omega
  · exact ⟨hpw, hse, hbound⟩

theorem invL_apply_indentation {r : DomRenderer} (h : InvL r) :
    InvL (apply_indentation r) := by
  unfold apply_indentation
  split
  · exact invL_push_span _ h
  · exact h

theorem invL_hardSplit : ∀ (fuel : Nat) (r : DomRenderer) (rem : List Char)
    (r' : DomRenderer), hardSplitFuel fuel r rem = some r' → InvL r → InvL r' := by
  intro fuel
  induction fuel with
  | zero => intro r rem r' h _; simp [hardSplitFuel] at h
  | succ f ih =>
    intro r rem r' h hInv
    simp only [hardSplitFuel] at h
    split at h
    · obtain rfl := Option.some.inj h
      exact hInv
    · split at h
      · exact ih _ _ _ h (invL_flush (invL_apply_indentation hInv))
      · split at h <;> split at h
        all_goals first
          | (obtain rfl := Option.some.inj h
             exact invL_push_span _ (invL_apply_indentation hInv))
          | exact ih _ _ _ h
              (invL_flush (invL_push_span _ (invL_apply_indentation hInv)))

theorem invL_push_word {r : DomRenderer} {w : List Char} {r' : DomRenderer}
    (h : push_word r w = some r') (hInv : InvL r) : InvL r' := by
  simp only [push_word] at h
  split at h
  · obtain rfl := Option.some.inj h
    exact hInv
  · split at h
    · obtain rfl := Option.some.inj h
      exact invL_push_span _ (invL_apply_indentation hInv)
    · split at h
      · obtain rfl := Option.some.inj h
        exact invL_push_span _
          (invL_apply_indentation (invL_flush (invL_apply_indentation hInv)))
      · split at h
        · exact invL_hardSplit _ _ _ _ h (invL_flush (invL_apply_indentation hInv))
        · exact invL_hardSplit _ _ _ _ h (invL_apply_indentation hInv)

theorem invL_walkWords : ∀ (ws : List (List Char)) (r r' : DomRenderer),
    walkWords r ws = some r' → InvL r → InvL r' := by
  intro ws
  induction ws with
  | nil =>
    intro r r' h hInv
    obtain rfl := Option.some.inj h
    exact hInv
  | cons w ws ih =>
    intro r r' h hInv
    simp only [walkWords] at h
    cases h1 : (if 0 < r.current_line_width ∧ r.current_line ≠ [] then push_word r [' ']
                else some r) with
    | none => rw [h1] at h; exact Option.noConfusion h
    | some r₁ =>
      rw [h1] at h
      dsimp only at h
      cases h2 : push_word r₁ w with
      | none => rw [h2] at h; exact Option.noConfusion h
      | some r₂ =>
        rw [h2] at h
        dsimp only at h
        have hi1 : InvL r₁ := by
          split at h1
          · exact invL_push_word h1 hInv
          · obtain rfl := Option.some.inj h1
            exact hInv
        exact ih _ _ h (invL_push_word h2 hi1)

theorem invL_walkTextPre : ∀ (ls : List (List Char)) (r r' : DomRenderer),
    walkTextPre r ls = some r' → InvL r → InvL r' := by
  intro ls
  induction ls with
  | nil =>
    intro r r' h hInv
    obtain rfl := Option.some.inj h
    exact hInv
  | cons line rest ih =>
    intro r r' h hInv
    simp only [walkTextPre] at h
    cases h1 : push_word r line with
    | none => rw [h1] at h; exact Option.noConfusion h
    | some r₁ =>
      rw [h1] at h
      dsimp only at h
      exact ih _ _ h (invL_flush (invL_push_word h1 hInv))

theorem invL_walkEntry {r : DomRenderer} {tag : List Char}
    {attrs : List (List Char × List Char)} {r1 : DomRenderer}
    (h : walkEntry r tag attrs = some r1) (hInv : InvL r) : InvL r1 := by
  unfold walkEntry at h
  by_cases c1 : tag = str "b" ∨ tag = str "strong"
  · rw [if_pos c1] at h
    obtain rfl := Option.some.inj h
    exact hInv
  rw [if_neg c1] at h
  by_cases c2 : tag = str "i" ∨ tag = str "em"
  · rw [if_pos c2] at h
    obtain rfl := Option.some.inj h
    exact hInv
  rw [if_neg c2] at h
  by_cases c3 : tag = str "a"
  · rw [if_pos c3] at h
    cases hh : getAttr attrs (str "href") <;> rw [hh] at h <;>
      (obtain rfl := Option.some.inj h; exact hInv)
  rw [if_neg c3] at h
  by_cases c4 : tag = str "h1" ∨ tag = str "h2" ∨ tag = str "h3"
  · rw [if_pos c4] at h
    obtain rfl := Option.some.inj h
    exact invL_vertical hInv
  rw [if_neg c4] at h
  by_cases c5 : tag = str "pre" ∨ tag = str "code"
  · rw [if_pos c5] at h
    obtain rfl := Option.some.inj h
    exact invL_flush hInv
  rw [if_neg c5] at h
  by_cases c6 : tag = str "ul" ∨ tag = str "ol"
  · rw [if_pos c6] at h
    obtain rfl := Option.some.inj h
    exact invL_flush hInv
  rw [if_neg c6] at h
  by_cases c7 : tag = str "li"
  · rw [if_pos c7] at h
    dsimp only at h
    exact invL_push_word h (invL_flush hInv)
  rw [if_neg c7] at h
  by_cases c8 : tag = str "img"
  · rw [if_pos c8] at h
    dsimp only at h
    cases hpw : push_word
        { r with current_style := { r.current_style with fg := some Col.darkGray } }
        (str "[" ++ (getAttr attrs (str "alt")).getD (str "IMAGE") ++ str "] ") with
    | none => rw [hpw] at h; exact Option.noConfusion h
    | some r'' =>
      rw [hpw] at h
      dsimp only at h
      obtain rfl := Option.some.inj h
      have hres := invL_push_word hpw hInv
      exact ⟨hres.1, hres.2.1, hres.2.2⟩
  rw [if_neg c8] at h
  by_cases c9 : tag = str "br"
  · rw [if_pos c9] at h
    obtain rfl := Option.some.inj h
    exact invL_flush hInv
  rw [if_neg c9] at h
  by_cases c10 : tag = str "p" ∨ tag = str "main" ∨ tag = str "article" ∨
      tag = str "section" ∨ tag = str "table" ∨ tag = str "aside"
  · rw [if_pos c10] at h
    obtain rfl := Option.some.inj h
    exact invL_vertical hInv
  rw [if_neg c10] at h
  by_cases c11 : tag = str "div" ∨ tag = str "header" ∨ tag = str "footer" ∨
      tag = str "nav" ∨ tag = str "tr"
  · rw [if_pos c11] at h
    obtain rfl := Option.some.inj h
    exact invL_flush hInv
  rw [if_neg c11] at h
  by_cases c12 : tag = str "td" ∨ tag = str "th"
  · rw [if_pos c12] at h
    exact invL_push_word h hInv
  rw [if_neg c12] at h
  by_cases c13 : tag = str "hr"
  · rw [if_pos c13] at h
    dsimp only at h
    cases hpw : push_word (add_vertical_space r)
        (List.replicate (add_vertical_space r).max_width '-') with
    | none => rw [hpw] at h; exact Option.noConfusion h
    | some r'' =>
      rw [hpw] at h
      dsimp only at h
      obtain rfl := Option.some.inj h
      exact invL_vertical (invL_push_word hpw (invL_vertical hInv))
  rw [if_neg c13] at h
  obtain rfl := Option.some.inj h
  exact hInv

theorem invL_walkExit {tag : List Char} {r3 : DomRenderer} (h : InvL r3) :
    InvL (walkExit tag r3) := by
  unfold walkExit
  split
  · exact invL_flush h
  split
  · exact invL_vertical h
  split
  · exact invL_flush h
  · exact h

mutual

theorem invL_walkNode (n : Node) : ∀ (r r' : DomRenderer),
    walkNode r n = some r' → InvL r → InvL r' := by
  intro r r' h hInv
  cases n with
  | text s =>
    simp only [walkNode] at h
    split at h
    · exact invL_walkTextPre _ _ _ h hInv
    · exact invL_walkWords _ _ _ h hInv
  | comment =>
    obtain rfl := Option.some.inj h
    exact hInv
  | element tag attrs children =>
    simp only [walkNode] at h
    split at h
    · obtain rfl := Option.some.inj h
      exact hInv
    split at h
    · obtain rfl := Option.some.inj h
      exact hInv
    · cases hE : walkEntry r tag attrs with
      | none => rw [hE] at h; exact Option.noConfusion h
      | some r1 =>
        rw [hE] at h
        dsimp only at h
        cases hC : walkNodes r1 children with
        | none => rw [hC] at h; exact Option.noConfusion h
        | some r2 =>
          rw [hC] at h
          dsimp only at h
          obtain rfl := Option.some.inj h
          have hi2 : InvL r2 := invL_walkNodes children r1 r2 hC (invL_walkEntry hE hInv)
          exact invL_walkExit ⟨hi2.1, hi2.2.1, hi2.2.2⟩

theorem invL_walkNodes (ns : List Node) : ∀ (r r' : DomRenderer),
    walkNodes r ns = some r' → InvL r → InvL r' := by
  intro r r' h hInv
  cases ns with
  | nil =>
    obtain rfl := Option.some.inj h
    exact hInv
  | cons n ns' =>
    simp only [walkNodes] at h
    cases h1 : walkNode r n with
    | none => rw [h1] at h; exact Option.noConfusion h
    | some r1 =>
      rw [h1] at h
      dsimp only at h
      exact invL_walkNodes ns' r1 r' h (invL_walkNode n r r1 h1 hInv)

end

theorem invL_new (w : Nat) : InvL (DomRenderer.new w) :=
  ⟨List.Pairwise.nil,
   by intro lk hm; exact absurd hm (List.not_mem_nil lk),
   by intro lk hm; exact absurd hm (List.not_mem_nil lk)⟩

theorem invL_render {width : Nat} {doc : List Node} {r : DomRenderer}
    (h : render width doc = some r) : InvL r := by
  unfold render at h
  cases hw : walkNodes (DomRenderer.new width) doc with
  | none => rw [hw] at h; exact Option.noConfusion h
  | some r0 =>
    rw [hw] at h
    dsimp only [Option.map] at h
    obtain rfl := Option.some.inj h
    exact invL_flush (invL_walkNodes doc _ _ hw (invL_new width))

theorem push_span_merges {r : DomRenderer} {u : List Char} {last : LinkRegion}
    (c : List Char)
    (hurl : r.active_link_url = some u)
    (hlast : r.links.getLast? = some last)
    (hline : last.line_index = r.lines.length)
    (hu : last.url = u)
    (hx : last.x_end = r.current_line_width) :
    (push_span_to_line r c).links =
      r.links.dropLast ++ [{ last with x_end := r.current_line_width + strWidth c }] := by
  rw [push_span_links]
  unfold linksAfterPush
  rw [hurl]
  dsimp only
  rw [hlast]
  dsimp only
  rw [if_pos ⟨hline, hu, hx⟩]

/-! ### Search scan: match shape and non-overlap -/

theorem scanLine_mem {q line : List Char} : ∀ (fuel idx : Nat) (p : Nat × Nat),
    p ∈ scanLine q line fuel idx → p.2 = p.1 + q.length ∧ idx ≤ p.1 := by
  intro fuel
  induction fuel with
  | zero => intro idx p hp; simp [scanLine] at hp
  | succ f ih =>
    intro idx p hp
    simp only [scanLine] at hp
    split at hp
    · split at hp
      · rcases List.mem_cons.mp hp with rfl | hp'
        · exact ⟨rfl, le_refl idx⟩
        · obtain ⟨h1, h2⟩ := ih _ _ hp'
          exact ⟨h1, by omega⟩
      · obtain ⟨h1, h2⟩ := ih _ _ hp
        exact ⟨h1, by omega⟩
    · simp at hp

theorem scanLine_pairwise {q line : List Char} : ∀ (fuel idx : Nat),
    (scanLine q line fuel idx).Pairwise (fun a b => a.2 ≤ b.1) := by
  intro fuel
  induction fuel with
  | zero => intro idx; simp [scanLine]
  | succ f ih =>
    intro idx
    simp only [scanLine]
    split
    · split
      · refine List.Pairwise.cons ?_ (ih _)
        intro b hb
        have := (scanLine_mem f _ b hb).2
        dsimp only
        omega
      · exact ih _
    · exact List.Pairwise.nil

theorem searchLines_mem {q : List Char} : ∀ (ls : List Line) (i : Nat) (m : SearchMatch),
    m ∈ searchLines q i ls →
    m.end_char = m.start_char + q.length ∧ i ≤ m.line_index := by
  intro ls
  induction ls with
  | nil => intro i m hm; simp [searchLines] at hm
  | cons l ls ih =>
    intro i m hm
    simp only [searchLines] at hm
    rcases List.mem_append.mp hm with h | h
    · obtain ⟨p, hp, rfl⟩ := List.mem_map.mp h
      exact ⟨(scanLine_mem _ _ p hp).1, le_refl i⟩
    · obtain ⟨h1, h2⟩ := ih (i + 1) m h
      exact ⟨h1, by omega⟩

theorem searchLines_pairwise {q : List Char} : ∀ (ls : List Line) (i : Nat),
    (searchLines q i ls).Pairwise RMatch := by
  intro ls
  induction ls with
  | nil => intro i; simp [searchLines]
  | cons l ls ih =>
    intro i
    simp only [searchLines]
    refine List.pairwise_append.mpr ⟨?_, ih (i + 1), ?_⟩
    · rw [List.pairwise_map]
      exact (scanLine_pairwise _ _).imp (fun h => Or.inr ⟨rfl, h⟩)
    · intro a ha b hb
      obtain ⟨p, hp, rfl⟩ := List.mem_map.mp ha
      have := (searchLines_mem ls (i + 1) b hb).2
      exact Or.inl (by dsimp only; omega)

/-! ### Selection normalization -/

theorem normalized_swap (a b c d : Nat) :
    (Selection.mk c d a b).normalized = (Selection.mk a b c d).normalized := by
  unfold Selection.normalized
  dsimp only
  by_cases h1 : a < c ∨ (a = c ∧ b ≤ d) <;> by_cases h2 : c < a ∨ (c = a ∧ d ≤ b)
  · rw [if_pos h2, if_pos h1]
    obtain rfl : a = c := by omega
    obtain rfl : b = d := by omega
    rfl
  · rw [if_neg h2, if_pos h1]
  · rw [if_pos h2, if_neg h1]
  · exfalso
    omega

theorem extract_swap (a b c d : Nat) (content : List Line) :
    Selection.extract_text ⟨c, d, a, b⟩ content =
      Selection.extract_text ⟨a, b, c, d⟩ content := by
  unfold Selection.extract_text
  rw [normalized_swap]

/-- At effective width 0 the hard-split loop makes no progress: the
iteration takes the `available_space == 0` branch, `flush_line` is a no-op
on the empty line, and the state repeats, so no amount of fuel produces a
result. -/
theorem hardSplit_stuck : ∀ fuel : Nat,
    hardSplitFuel fuel (DomRenderer.new 0) (str "a") = none := by
  intro fuel
  induction fuel with
  | zero => rfl
  | succ f ih => exact ih

/-! ### The claims -/

/-- C1 (counterexample): layout is not total.  At `width = 0` (and any
width ≤ 2) the renderer's `max_width` is 0, and rendering the document
`[Text "a"]` never terminates: `push_word` enters the hard-split case and
the loop's `available_space == 0` branch flushes an empty line and
retries forever.  In the embedding the fueled loop returns `none`, and no
fuel value makes it succeed, so there is no degrade-to-width-1 fallback. -/
theorem render_width0_diverges :
    render 0 docA = none ∧
    ¬∃ (fuel : Nat) (r' : DomRenderer),
        hardSplitFuel fuel (DomRenderer.new 0) (str "a") = some r' := by
  constructor
  · rfl
  · rintro ⟨fuel, r', h⟩
    rw [hardSplit_stuck fuel] at h
    exact Option.noConfusion h

/-- C1 (amended): for every document tree containing no list elements
(`ul`/`ol`) and every width ≥ 3 (so the usable width `width − 2` is at
least 1), layout (`DomRenderer::new` followed by `render`) terminates and
returns a result.  (At width ≤ 2, or when list indentation reaches the
whole usable width, the hard-split loop diverges instead of degrading to
a minimum width of 1.) -/
theorem render_terminates_noList (doc : List Node) (width : Nat)
    (hnl : noListNodes doc = true) (hw : 3 ≤ width) :
    ∃ r, render width doc = some r := by
  have hM : 1 ≤ width - 2 := by omega
  obtain ⟨r0, hw0, _⟩ :=
    invW_walkNodes (M := width - 2) doc (DomRenderer.new width) hnl (invW_new width) hM
  refine ⟨flush_line r0, ?_⟩
  unfold render
  rw [hw0]
  rfl

theorem render_terminates_noList_witness :
    noListNodes docW1 = true ∧ 3 ≤ 40 ∧ ∃ r, render 40 docW1 = some r :=
  ⟨by decide, by decide, render_terminates_noList docW1 40 (by decide) (by decide)⟩

/-- C2 (counterexample): rendering
`<h1>Hi</h1><p>See <a href="/x">this</a>.</p>` at width 40 does not match
the claimed output.  The paragraph line reads `"See this ."` (the walker
inserts an inter-word space before every word of a new text node, so a
space precedes the final `"."`), the single link region is
`{url "/x", line_index 3, x_start 3, x_end 8}` — the space emitted inside
the `<a>` element is recorded and merged, so the region starts at column
3, and two blank separator lines (one from leaving `h1`, one from
entering `p`) put the paragraph on line 3, not 2. -/
theorem scenario_claim_false :
    (render 40 doc2).map DomRenderer.links = some [⟨str "/x", 3, 3, 8⟩] ∧
    ¬(render 40 doc2).map DomRenderer.links = some [⟨str "/x", 2, 4, 8⟩] ∧
    (render 40 doc2).map (fun r => r.lines.map lineToString) =
      some [str "Hi", [], [], str "See this .", []] := by
  refine ⟨by decide, by decide, by decide⟩

/-- C2 (amended): rendering
`<h1>Hi</h1><p>See <a href="/x">this</a>.</p>` at width 40 produces the
bold white line `"Hi"`, two blank separator lines, then the paragraph
line `"See this ."`, a final blank line, and exactly one link region
`{url "/x", line_index 3, x_start 3, x_end 8}` (the inter-word space
emitted inside the anchor is part of the merged region). -/
theorem scenario_actual_output :
    (render 40 doc2).map (fun r => r.lines.map lineToString) =
      some [str "Hi", [], [], str "See this .", []] ∧
    (render 40 doc2).map (fun r => r.lines.getD 0 []) =
      some [⟨str "Hi", { bold := true, fg := some Col.white }⟩] ∧
    (render 40 doc2).map DomRenderer.links = some [⟨str "/x", 3, 3, 8⟩] := by
  refine ⟨by decide, by decide, by decide⟩

/-- C3 (counterexample): at width 12 (`max_width = 10`) the document
`<ul><li>aaaaaaaaaa</li></ul>` produces the lines `"  â€¢  "` (width 7)
and `"  aaaaaaaaaa"` (width 12 > `max_width`), although every pushed span
fits within `max_width` (so no token was ever hard-split): the indentation
re-applied after a standard wrap is not counted against the bound.  This
falsifies the width invariant as stated. -/
theorem width_invariant_list_violation :
    (render 12 doc3).map (fun r => r.lines.map line_width) = some [7, 12] ∧
    (render 12 doc3).map DomRenderer.max_width = some 10 ∧
    (render 12 doc3).map
        (fun r => r.lines.all (fun l => l.all (fun sp => decide (strWidth sp.content ≤ 10)))) =
      some true := by
  refine ⟨by decide, by decide, by decide⟩

/-- C3 (amended): for every document tree without list elements and every
width ≥ 3 (`max_width = width − 2 ≥ 1`), every line produced by a
successful layout has display width at most `max_width + 1`, and a line
exceeding `max_width` contains a 2-column character (an oversized
indivisible cluster forced through a 1-column remainder during a hard
split).  Inside lists the re-applied indentation can additionally exceed
the bound, as the counterexample shows. -/
theorem render_width_bound (doc : List Node) (width : Nat) (r : DomRenderer)
    (hnl : noListNodes doc = true) (hw : 3 ≤ width)
    (hr : render width doc = some r) :
    ∀ l ∈ r.lines,
      line_width l ≤ (width - 2) + 1 ∧ (line_width l ≤ width - 2 ∨ hasWide l) := by
  have hM : 1 ≤ width - 2 := by omega
  obtain ⟨r0, hw0, hInv⟩ :=
    invW_walkNodes (M := width - 2) doc (DomRenderer.new width) hnl (invW_new width) hM
  have hreq : r = flush_line r0 := by
    unfold render at hr
    rw [hw0] at hr
    exact (Option.some.inj hr).symm
  subst hreq
  have hf := invW_flush hInv
  intro l hl
  rcases hf.2.2.2.2 l hl with h | ⟨h1, h2⟩
  · exact ⟨by omega, Or.inl h⟩
  · exact ⟨h1, Or.inr h2⟩

theorem render_width_bound_witness :
    render 40 docW1 = some resultW1 ∧
    ∀ l ∈ resultW1.lines,
      line_width l ≤ (40 - 2) + 1 ∧ (line_width l ≤ 40 - 2 ∨ hasWide l) :=
  ⟨by decide, render_width_bound docW1 40 resultW1 (by decide) (by decide) (by decide)⟩

/-- C4 (counterexample): a link whose text has display width 0 (here a
single combining mark) produces a degenerate region with
`x_start = x_end = 0`, falsifying "every region satisfies
`x_start < x_end`". -/
theorem link_region_degenerate :
    (render 40 docZ).map DomRenderer.links = some [⟨str "/u", 0, 0, 0⟩] ∧
    ¬∀ lk ∈ [(⟨str "/u", 0, 0, 0⟩ : LinkRegion)], lk.x_start < lk.x_end := by
  refine ⟨by decide, by decide⟩

/-- C4 (amended): in the link registry produced by any successful layout,
the regions are emitted in order — a later region sits on a later line or
starts at or after the previous region's end on the same line (hence
regions on one line are non-overlapping and sorted by `x_start`) — and
every region satisfies `x_start ≤ x_end` (equality occurs exactly for
zero-display-width link text, so `x_start < x_end` does not always hold);
and a span pushed while the last recorded region has the same URL, sits
on the current line and ends exactly at the span's start column extends
that region in place instead of recording a new one. -/
theorem link_regions_ordered :
    (∀ (doc : List Node) (width : Nat) (r : DomRenderer),
      render width doc = some r →
      r.links.Pairwise RLink ∧ ∀ lk ∈ r.links, lk.x_start ≤ lk.x_end) ∧
    (∀ (r : DomRenderer) (u : List Char) (last : LinkRegion) (c : List Char),
      r.active_link_url = some u → r.links.getLast? = some last →
      last.line_index = r.lines.length → last.url = u →
      last.x_end = r.current_line_width →
      (push_span_to_line r c).links =
        r.links.dropLast ++
          [{ last with x_end := r.current_line_width + strWidth c }]) :=
  ⟨fun _ _ _ h => ⟨(invL_render h).1, (invL_render h).2.1⟩,
   fun _ _ _ c h1 h2 h3 h4 h5 => push_span_merges c h1 h2 h3 h4 h5⟩

theorem link_regions_ordered_witness :
    (render 40 docW4 = some resultW4 ∧
      resultW4.links.Pairwise RLink ∧
      ∀ lk ∈ resultW4.links, lk.x_start ≤ lk.x_end) ∧
    (push_span_to_line stateMerge (str "cd")).links =
      stateMerge.links.dropLast ++
        [{ (⟨str "/u", 0, 0, 2⟩ : LinkRegion) with
            x_end := stateMerge.current_line_width + strWidth (str "cd") }] :=
  ⟨⟨by decide, link_regions_ordered.1 docW4 40 resultW4 (by decide)⟩,
   link_regions_ordered.2 stateMerge (str "/u") ⟨str "/u", 0, 0, 2⟩ (str "cd")
     rfl rfl rfl rfl rfl⟩

/-- C5 (code evaluation): in `Selection::extract_text`, a start char
offset past the end of the line does not clamp to the line's byte
length — `char_indices().nth(start)` returns `None` and the code falls
back to byte offset 0 (`unwrap_or(0)`), so the selection `(0,5)-(0,7)` on
the line `"abc"` extracts the entire line `"abc"` instead of the empty
string the spec requires. -/
theorem extract_start_clamp_bug :
    Selection.extract_text ⟨0, 5, 0, 7⟩ [[⟨str "abc", {}⟩]] = str "abc" := by
  decide

/-- C6: UTF-8 selection exactness — on the line `"Hello 🦀 World"` the
selection `(0,6)-(0,7)` extracts exactly `"🦀"` — and extraction
normalizes its endpoints by `(line, char)` order, so swapping anchor and
cursor yields the same string. -/
theorem utf8_selection_exact :
    Selection.extract_text ⟨0, 6, 0, 7⟩ [[⟨str "Hello 🦀 World", {}⟩]] = str "🦀" ∧
    ∀ (a b c d : Nat) (content : List Line),
      Selection.extract_text ⟨c, d, a, b⟩ content =
        Selection.extract_text ⟨a, b, c, d⟩ content := by
  refine ⟨by decide, fun a b c d content => extract_swap a b c d content⟩

/-- C7: search records matches greedily left to right with no overlaps —
for query `"aa"` on the line `"aaaa"` the matches are exactly `[0,2)` and
`[2,4)` — and in every produced search state each match has
`end_char = start_char + query length` and the match list is ordered with
non-overlapping matches per line. -/
theorem search_no_overlap :
    perform_search (str "aa") [[⟨str "aaaa", {}⟩]] =
      some ⟨str "aa", [⟨0, 0, 2⟩, ⟨0, 2, 4⟩], 0⟩ ∧
    ∀ (q : List Char) (content : List Line) (st : SearchState),
      perform_search q content = some st →
      (∀ m ∈ st.matches', m.end_char = m.start_char + q.length) ∧
      st.matches'.Pairwise RMatch := by
  constructor
  · decide
  · intro q content st h
    unfold perform_search at h
    split at h
    · exact Option.noConfusion h
    · dsimp only at h
      split at h
      · exact Option.noConfusion h
      · obtain rfl := Option.some.inj h
        exact ⟨fun m hm => (searchLines_mem content 0 m hm).1,
          searchLines_pairwise content 0⟩

theorem search_no_overlap_witness :
    perform_search (str "aa") [[⟨str "aaaa", {}⟩]] =
      some ⟨str "aa", [⟨0, 0, 2⟩, ⟨0, 2, 4⟩], 0⟩ ∧
    ((∀ m ∈ (⟨str "aa", [⟨0, 0, 2⟩, ⟨0, 2, 4⟩], 0⟩ : SearchState).matches',
        m.end_char = m.start_char + (str "aa").length) ∧
      (⟨str "aa", [⟨0, 0, 2⟩, ⟨0, 2, 4⟩], 0⟩ : SearchState).matches'.Pairwise RMatch) :=
  ⟨by decide,
   search_no_overlap.2 (str "aa") [[⟨str "aaaa", {}⟩]] _ (by decide)⟩

/-- C8 (code evaluation): the `j` arm of `handle_visual_mode` reads
`tab.rendered_content[tab.cursor_line]` without a bounds check; on an
empty buffer `cursor_line` clamps to `0` but the index `0` is still out
of range, so the handler panics — modelled here by `none`. -/
theorem visual_move_down_empty_panics :
    visual_move_down ⟨[], 0, 0, some ⟨0, 0, 0, 0⟩⟩ = none := by
  decide

/-- C9: stack discipline of the tree walk — for every element node, when
the walk returns, `current_style`, `active_link_url`,
`preserve_whitespace` and `list_depth` equal their values from just
before the node was entered. -/
theorem walk_restores_state (r : DomRenderer) (tag : List Char)
    (attrs : List (List Char × List Char)) (children : List Node)
    (r' : DomRenderer)
    (h : walkNode r (Node.element tag attrs children) = some r') :
    r'.current_style = r.current_style ∧
    r'.active_link_url = r.active_link_url ∧
    r'.preserve_whitespace = r.preserve_whitespace ∧
    r'.list_depth = r.list_depth :=
  walkNode_fieldsEq _ r r' h

theorem walk_restores_state_witness :
    walkNode (DomRenderer.new 10) nodeB = some (DomRenderer.new 10) ∧
    ((DomRenderer.new 10).current_style = (DomRenderer.new 10).current_style ∧
      (DomRenderer.new 10).active_link_url = (DomRenderer.new 10).active_link_url ∧
      (DomRenderer.new 10).preserve_whitespace = (DomRenderer.new 10).preserve_whitespace ∧
      (DomRenderer.new 10).list_depth = (DomRenderer.new 10).list_depth) :=
  ⟨by decide,
   walk_restores_state (DomRenderer.new 10) (str "b") [] [] (DomRenderer.new 10)
     (by decide)⟩

/-- C10: `DomRenderer::new(width)` sets the wrapping bound to
`width − 2` (saturating), `App::render_tab` constructs the renderer with
the terminal width already reduced by 2 — so content wraps at terminal
width − 4 — and a caller passing the usable column count directly gets
lines two columns narrower than requested: at width 7 the 7-column text
`"aaa bbb"` is wrapped into two lines. -/
theorem renderer_width_offset :
    (∀ w : Nat, (DomRenderer.new w).max_width = w - 2) ∧
    (∀ w : Nat, (render_tab_renderer w).max_width = w - 4) ∧
    (render 7 [Node.text (str "aaa bbb")]).map (fun r => r.lines.map lineToString) =
      some [str "aaa ", str "bbb"] := by
  refine ⟨fun w => rfl, fun w => ?_, by decide⟩
  show w - 2 - 2 = w - 4
  omega

end Rynx
